import Mathlib

/-!
Shallow embedding of the two Spack package recipes
`var/spack/repos/builtin/packages/erf/package.py` and
`var/spack/repos/builtin/packages/remora/package.py`.

Both files define a module-level generator `process_amrex_constraints`
(the constraint expander), a table of declared variants, and a `libs`
property.  The generator iterates `itertools.product` over
`a3 = [[x + y for x in a1] for y in a2]` with `a1 = ['+', '~']` and
`a2 = ['mpi', 'cuda']`; for each tuple `k` it yields either one string
per element of `CudaPackage.cuda_arch_values` (when `'+cuda' in k`) or
the single joined string (otherwise).  The external sequence
`CudaPackage.cuda_arch_values` is taken as a parameter.
-/

namespace Erf

/-- `a1 = ['+', '~']` (erf/package.py line 29). -/
def a1 : List String := ["+", "~"]

/-- `a2 = ['mpi', 'cuda']` (erf/package.py line 30). -/
def a2 : List String := ["mpi", "cuda"]

/-- `a3 = [[x + y for x in a1] for y in a2]` (erf/package.py line 31). -/
def a3 : List (List String) := a2.map (fun y => a1.map (fun x => x ++ y))

/-- `itertools.product(*ls)`: the cross product of a list of lists, the
leftmost coordinate varying slowest, matching Python iteration order. -/
def product : List (List String) → List (List String)
  | [] => [[]]
  | l :: ls => l.flatMap (fun x => (product ls).map (fun t => x :: t))

/-- The body of the `for k in itertools.product(*a3)` loop
(erf/package.py lines 33-37): the strings yielded for one tuple `k`. -/
def emit_for (cuda_arch_values : List String) (k : List String) : List String :=
  if "+cuda" ∈ k then
    cuda_arch_values.map (fun arch => String.join k ++ " cuda_arch=" ++ arch)
  else
    [String.join k]

/-- `process_amrex_constraints` (erf/package.py lines 27-37), with the
external `CudaPackage.cuda_arch_values` supplied as the parameter.  The
lazy generator is embedded as the eager list of everything it yields. -/
def process_amrex_constraints (cuda_arch_values : List String) : List String :=
  (product a3).flatMap (emit_for cuda_arch_values)

/-- The names passed to the `variant(...)` declarations of class `Erf`
(erf/package.py lines 56-80), in declaration order. -/
def declared_variant_names : List String :=
  ["dimensions", "shared", "mpi", "openmp", "precision", "eb", "fortran",
   "hdf5", "tests", "netcdf", "internal-amrex", "fortran"]

/-- `libsuffix = {'2': '2d', '3': '3d', 'rz': 'rz'}` (erf/package.py line 167). -/
def libsuffix : List (String × String) := [("2", "2d"), ("3", "3d"), ("rz", "rz")]

/-- The `libs` property (erf/package.py lines 165-172).  A spec's variant
assignment is an association list from variant name to value; a failed
dictionary lookup (Python `KeyError`) is the `none` error branch, and a
successful run returns the library name pattern given to `find_libraries`. -/
def libs (variants : List (String × String)) : Option String :=
  match variants.lookup "dims" with
  | none => none
  | some dims =>
    match libsuffix.lookup dims with
    | none => none
    | some suf => some ("liberf." ++ suf)

end Erf

namespace Remora

/-- `a1 = ['+', '~']` (remora/package.py line 33). -/
def a1 : List String := ["+", "~"]

/-- `a2 = ['mpi', 'cuda']` (remora/package.py line 34). -/
def a2 : List String := ["mpi", "cuda"]

/-- `a3 = [[x + y for x in a1] for y in a2]` (remora/package.py line 35). -/
def a3 : List (List String) := a2.map (fun y => a1.map (fun x => x ++ y))

/-- `itertools.product(*ls)` as in the erf embedding. -/
def product : List (List String) → List (List String)
  | [] => [[]]
  | l :: ls => l.flatMap (fun x => (product ls).map (fun t => x :: t))

/-- The body of the `for k in itertools.product(*a3)` loop
(remora/package.py lines 37-41). -/
def emit_for (cuda_arch_values : List String) (k : List String) : List String :=
  if "+cuda" ∈ k then
    cuda_arch_values.map (fun arch => String.join k ++ " cuda_arch=" ++ arch)
  else
    [String.join k]

/-- `process_amrex_constraints` (remora/package.py lines 31-41). -/
def process_amrex_constraints (cuda_arch_values : List String) : List String :=
  (product a3).flatMap (emit_for cuda_arch_values)

/-- The names passed to the `variant(...)` declarations of class `Remora`
(remora/package.py lines 62-86), in declaration order. -/
def declared_variant_names : List String :=
  ["dimensions", "shared", "mpi", "openmp", "precision", "eb", "fortran",
   "hdf5", "tests", "netcdf", "internal-amrex", "fortran"]

/-- `libsuffix = {'2': '2d', '3': '3d', 'rz': 'rz'}` (remora/package.py line 173). -/
def libsuffix : List (String × String) := [("2", "2d"), ("3", "3d"), ("rz", "rz")]

/-- The `libs` property (remora/package.py lines 171-178); note the file
searches for `liberf.`-prefixed libraries, copied from the erf recipe. -/
def libs (variants : List (String × String)) : Option String :=
  match variants.lookup "dims" with
  | none => none
  | some dims =>
    match libsuffix.lookup dims with
    | none => none
    | some suf => some ("liberf." ++ suf)

end Remora

/-- The four tuples produced by `itertools.product(*a3)`, spelled out. -/
theorem Erf.product_a3_eq :
    Erf.product Erf.a3 =
      [["+mpi", "+cuda"], ["+mpi", "~cuda"], ["~mpi", "+cuda"], ["~mpi", "~cuda"]] := by
  rfl

/-- Shared helper: the full output of the erf generator, as the explicit
concatenation of the four per-tuple yields, in loop order. -/
theorem Erf.process_amrex_constraints_eq (A : List String) :
    Erf.process_amrex_constraints A =
      A.map (fun a => "+mpi+cuda" ++ " cuda_arch=" ++ a) ++
        ("+mpi~cuda" :: (A.map (fun a => "~mpi+cuda" ++ " cuda_arch=" ++ a) ++
          ["~mpi~cuda"])) := by
  rfl

/-- Shared helper: the erf generator yields `2|A| + 2` strings. -/
theorem Erf.process_amrex_constraints_length (A : List String) :
    (Erf.process_amrex_constraints A).length = 2 * A.length + 2 := by
  rw [Erf.process_amrex_constraints_eq]
  simp
  ring

/-- Shared helper: the full output of the remora generator. -/
theorem Remora.process_amrex_output_eq (A : List String) :
    Remora.process_amrex_constraints A =
      A.map (fun a => "+mpi+cuda" ++ " cuda_arch=" ++ a) ++
        ("+mpi~cuda" :: (A.map (fun a => "~mpi+cuda" ++ " cuda_arch=" ++ a) ++
          ["~mpi~cuda"])) := by
  rfl

/-- Shared helper: an association-list lookup whose key appears as no
entry's first component returns `none`. -/
theorem lookup_eq_none_of_key_not_used {l : List (String × String)} {key : String}
    (h : ∀ p ∈ l, p.1 ≠ key) : l.lookup key = none := by
  induction l with
  | nil => rfl
  | cons hd tl ih =>
    obtain ⟨k, v⟩ := hd
    have hk : key ≠ k := fun he => h (k, v) (by simp) he.symm
    have hb : (key == k) = false := beq_eq_false_iff_ne.mpr hk
    simp only [List.lookup, hb]
    exact ih fun p hp => h p (List.mem_cons_of_mem _ hp)

/-- C1: for the fixed feature list `["mpi","cuda"]` and polarities `+`/`~`,
the generator enumerates exactly 4 base polarity combinations before
architecture expansion, each one polarity-prefixed token per feature with
the mpi token first, in the order `+mpi+cuda, +mpi~cuda, ~mpi+cuda,
~mpi~cuda`. -/
theorem c1_base_polarity_combinations :
    Erf.product Erf.a3 =
        [["+mpi", "+cuda"], ["+mpi", "~cuda"], ["~mpi", "+cuda"], ["~mpi", "~cuda"]] ∧
      (Erf.product Erf.a3).map String.join =
        ["+mpi+cuda", "+mpi~cuda", "~mpi+cuda", "~mpi~cuda"] :=
  ⟨rfl, rfl⟩

/-- C2: for every architecture-tag sequence `A` the generator yields
`2^(|F|-1) × |A| + 2^(|F|-1) = 2|A| + 2` strings in total. -/
theorem c2_total_emitted_count (A : List String) :
    (Erf.process_amrex_constraints A).length = 2 * A.length + 2 :=
  Erf.process_amrex_constraints_length A

/-- C3: for every base combination containing `+cuda`, the loop body emits
exactly `|A|` strings, one per architecture tag, each ending in the tag
formatted as a selector clause; with `A = []` it emits nothing. -/
theorem c3_enabled_cuda_emission (A k : List String) (hk : k ∈ Erf.product Erf.a3)
    (hc : "+cuda" ∈ k) :
    (Erf.emit_for A k).length = A.length ∧
      (∀ s ∈ Erf.emit_for A k, ∃ a ∈ A, ∃ pre, s = pre ++ (" cuda_arch=" ++ a)) ∧
      (A = [] → Erf.emit_for A k = []) := by
  refine ⟨by simp [Erf.emit_for, hc], ?_, ?_⟩
  · intro s hs
    simp only [Erf.emit_for, if_pos hc, List.mem_map] at hs
    obtain ⟨a, ha, rfl⟩ := hs
    exact ⟨a, ha, String.join k, by rw [String.append_assoc]⟩
  · intro hA
    subst hA
    simp [Erf.emit_for, hc]

/-- Witness for C3 at `A = ["70", "80"]`, `k = ["+mpi", "+cuda"]`. -/
theorem c3_enabled_cuda_emission_witness :
    (Erf.emit_for ["70", "80"] ["+mpi", "+cuda"]).length =
        (["70", "80"] : List String).length ∧
      (∀ s ∈ Erf.emit_for ["70", "80"] ["+mpi", "+cuda"],
        ∃ a ∈ (["70", "80"] : List String), ∃ pre, s = pre ++ (" cuda_arch=" ++ a)) ∧
      ((["70", "80"] : List String) = [] →
        Erf.emit_for ["70", "80"] ["+mpi", "+cuda"] = []) :=
  c3_enabled_cuda_emission ["70", "80"] ["+mpi", "+cuda"] (by decide) (by decide)

/-- C4: for every base combination containing `~cuda` (hence no `+cuda`
element), the loop body emits exactly the one joined string, with no
architecture suffix. -/
theorem c4_disabled_cuda_emission (A k : List String) (hk : k ∈ Erf.product Erf.a3)
    (hc : "+cuda" ∉ k) :
    Erf.emit_for A k = [String.join k] := by
  simp [Erf.emit_for, hc]

/-- Witness for C4 at `A = ["70"]`, `k = ["+mpi", "~cuda"]`. -/
theorem c4_disabled_cuda_emission_witness :
    Erf.emit_for ["70"] ["+mpi", "~cuda"] = [String.join ["+mpi", "~cuda"]] :=
  c4_disabled_cuda_emission ["70"] ["+mpi", "~cuda"] (by decide) (by decide)

/-- C5: every yielded string carries exactly one polarity token per feature
(mpi then cuda), and an architecture selector clause appears exactly on the
strings whose cuda token is `+cuda`. -/
theorem c5_token_shape_invariant (A : List String) (s : String)
    (hs : s ∈ Erf.process_amrex_constraints A) :
    ∃ p ∈ Erf.a1, ∃ q ∈ Erf.a1,
      (q = "~" ∧ s = p ++ "mpi" ++ q ++ "cuda") ∨
        (q = "+" ∧ ∃ a ∈ A, s = p ++ "mpi" ++ q ++ "cuda" ++ " cuda_arch=" ++ a) := by
  rw [Erf.process_amrex_constraints_eq] at hs
  simp only [List.mem_append, List.mem_cons, List.mem_map, List.not_mem_nil,
    or_false] at hs
  rcases hs with ⟨a, ha, rfl⟩ | rfl | ⟨a, ha, rfl⟩ | rfl
  · exact ⟨"+", by simp [Erf.a1], "+", by simp [Erf.a1], Or.inr ⟨rfl, a, ha, rfl⟩⟩
  · exact ⟨"+", by simp [Erf.a1], "~", by simp [Erf.a1], Or.inl ⟨rfl, rfl⟩⟩
  · exact ⟨"~", by simp [Erf.a1], "+", by simp [Erf.a1], Or.inr ⟨rfl, a, ha, rfl⟩⟩
  · exact ⟨"~", by simp [Erf.a1], "~", by simp [Erf.a1], Or.inl ⟨rfl, rfl⟩⟩

/-- Witness for C5 at `A = ["70"]`, `s = "+mpi~cuda"`. -/
theorem c5_token_shape_invariant_witness :
    ∃ p ∈ Erf.a1, ∃ q ∈ Erf.a1,
      (q = "~" ∧ "+mpi~cuda" = p ++ "mpi" ++ q ++ "cuda") ∨
        (q = "+" ∧ ∃ a ∈ (["70"] : List String),
          "+mpi~cuda" = p ++ "mpi" ++ q ++ "cuda" ++ " cuda_arch=" ++ a) :=
  c5_token_shape_invariant ["70"] "+mpi~cuda" (by decide)

/-- C6: the erf and remora copies of `process_amrex_constraints` are
extensionally equal: same architecture-tag sequence, same ordered output. -/
theorem c6_erf_remora_generators_equal (A : List String) :
    Erf.process_amrex_constraints A = Remora.process_amrex_constraints A := by
  rw [Erf.process_amrex_constraints_eq, Remora.process_amrex_output_eq]

/-- C7: the generator is deterministic: equal architecture-tag sequences
give identical ordered outputs. -/
theorem c7_deterministic (A B : List String) (h : A = B) :
    Erf.process_amrex_constraints A = Erf.process_amrex_constraints B := by
  rw [h]

/-- Witness for C7 at `A = B = ["70"]`. -/
theorem c7_deterministic_witness :
    Erf.process_amrex_constraints ["70"] = Erf.process_amrex_constraints ["70"] :=
  c7_deterministic ["70"] ["70"] rfl

/-- C8: the generator is total and effect-free: embedded as a total pure
function, it yields for every finite `A` a finite list of exactly
`2|A| + 2` strings, within the spec's bound `2^|F| × max(1,|A|)`. -/
theorem c8_total_and_finite (A : List String) :
    (Erf.process_amrex_constraints A).length = 2 * A.length + 2 ∧
      (Erf.process_amrex_constraints A).length ≤ 4 * max 1 A.length := by
  have h := Erf.process_amrex_constraints_length A
  refine ⟨h, ?_⟩
  rw [h]
  have h1 : 1 ≤ max 1 A.length := le_max_left 1 A.length
  have h2 : A.length ≤ max 1 A.length := le_max_right 1 A.length
  omega

/-- C9: for every `+cuda` base combination, the emitted strings are exactly
the base string followed by a space, `cuda_arch=`, and the tag, one per tag
of `A` in order. -/
theorem c9_enabled_cuda_exact_strings (A k : List String)
    (hk : k ∈ Erf.product Erf.a3) (hc : "+cuda" ∈ k) :
    Erf.emit_for A k = A.map (fun a => String.join k ++ " cuda_arch=" ++ a) := by
  simp [Erf.emit_for, hc]

/-- Witness for C9 at `A = ["70", "80"]`, `k = ["+mpi", "+cuda"]`. -/
theorem c9_enabled_cuda_exact_strings_witness :
    Erf.emit_for ["70", "80"] ["+mpi", "+cuda"] =
      (["70", "80"] : List String).map
        (fun a => String.join ["+mpi", "+cuda"] ++ " cuda_arch=" ++ a) :=
  c9_enabled_cuda_exact_strings ["70", "80"] ["+mpi", "+cuda"] (by decide) (by decide)

/-- C10: neither package declares a variant named `dims` (the declared one
is `dimensions`), so on every spec whose variants are drawn from the
declared variant set, the `dims` lookup in `libs` fails and `libs` takes
its error branch in both packages. -/
theorem c10_libs_dims_lookup_fails (variants : List (String × String))
    (h : ∀ p ∈ variants, p.1 ∈ Erf.declared_variant_names) :
    "dims" ∉ Erf.declared_variant_names ∧
      "dims" ∉ Remora.declared_variant_names ∧
      Erf.libs variants = none ∧ Remora.libs variants = none := by
  have hnone : variants.lookup "dims" = none := by
    apply lookup_eq_none_of_key_not_used
    intro p hp hpk
    have hm := h p hp
    rw [hpk] at hm
    revert hm
    decide
  refine ⟨by decide, by decide, ?_, ?_⟩
  · simp [Erf.libs, hnone]
  · simp [Remora.libs, hnone]

/-- Witness for C10 at a spec assigning only declared variants. -/
theorem c10_libs_dims_lookup_fails_witness :
    "dims" ∉ Erf.declared_variant_names ∧
      "dims" ∉ Remora.declared_variant_names ∧
      Erf.libs [("dimensions", "3"), ("mpi", "True")] = none ∧
      Remora.libs [("dimensions", "3"), ("mpi", "True")] = none :=
  c10_libs_dims_lookup_fails [("dimensions", "3"), ("mpi", "True")] (by decide)
